import Mathlib

/-!
# Verification of the UPGMA clustering engine

Shallow embedding of `upgma.py`: the `Node` tree structure, the cached
nearest-neighbor entries of the active set, `get_dist`, `update_distances`,
`_get_closest_pair` and `build_tree`, together with proofs of the spec's
claims about them.

A Python `Node` stores a taxon in `left` (with `right = None`) when it is a
leaf, and two `Node` children when it is an OTU.  The tree shape is embedded
as `Tree`; the active-set identity of a cluster object (Python object
identity inside the `clusters` set) is embedded as a unique `Nat` id carried
by an `Entry`, whose mutable cache fields `nn` / `dist_to_NN` mirror the
Python attributes of the same names.  Distances are embedded as `ℚ`
(the code is generic over the numeric type returned by `dist_function`;
Python's `/` is exact division on that type).  The unordered Python `set`
is embedded as a `List` (a fixed iteration order); new clusters are
appended at the end.
-/

namespace Upgma

/-- Tree shape of a `Node`: a leaf holds a taxon, an OTU holds two subtrees. -/
inductive Tree (α : Type) where
  | leaf (item : α)
  | node (left right : Tree α)
deriving DecidableEq

namespace Tree

/-- `Node.__iter__`: yield all taxa, left child first, then right child. -/
def leaves {α : Type} : Tree α → List α
  | leaf a => [a]
  | node l r => leaves l ++ leaves r

/-- `Node.__len__`: number of taxa contained in the Node. -/
def len {α : Type} (t : Tree α) : Nat := t.leaves.length

/-- Number of OTU (internal) nodes of the tree. -/
def internal {α : Type} : Tree α → Nat
  | leaf _ => 0
  | node l r => internal l + internal r + 1

/-- `Node.__str__`: taxa joined with "-" (given a rendering of taxa). -/
def toDisplay {α : Type} (f : α → String) (t : Tree α) : String :=
  String.intercalate "-" (t.leaves.map f)

end Tree

/-- Result of `get_left` / `get_right` / `get_largest_branch`: in Python a
child slot holds `None`, a raw taxon, or a `Node`. -/
inductive Child (α : Type) where
  | none
  | taxon (item : α)
  | cluster (t : Tree α)
deriving DecidableEq

/-- `Node.get_left`: a leaf's `left` slot holds the raw taxon. -/
def Tree.get_left {α : Type} : Tree α → Child α
  | .leaf a => .taxon a
  | .node l _ => .cluster l

/-- `Node.get_right`: a leaf's `right` slot is `None`. -/
def Tree.get_right {α : Type} : Tree α → Child α
  | .leaf _ => .none
  | .node _ r => .cluster r

/-- `itertools.product(self, node2)`: all pairs, first component varying
slowest (the exact enumeration order of the Python iterator). -/
def prodList {α β : Type} : List α → List β → List (α × β)
  | [], _ => []
  | a :: t, l2 => l2.map (fun b => (a, b)) ++ prodList t l2

/-- `Node.get_dist`: sum of `dist_function` over all leaf pairs, divided by
`len(self) + len(node2)`. -/
def Tree.get_dist {α : Type} (d : α → α → ℚ) (t1 t2 : Tree α) : ℚ :=
  (((prodList t1.leaves t2.leaves).map (fun p => d p.1 p.2)).sum) /
    ((t1.len : ℚ) + (t2.len : ℚ))

/-- An active-set member: the Python `Node` object seen from the `clusters`
set.  `id` embeds object identity (`is` / default `==`), `nn` and
`dist_to_NN` are the cache attributes set by `update_distances`. -/
structure Entry (α : Type) where
  id : Nat
  tree : Tree α
  nn : Option Nat
  dist_to_NN : Option ℚ
deriving DecidableEq

/-- The loop body of `Node.update_distances`: fold over the clusters,
skipping `self`, keeping the first strict minimum. -/
def updGo {α : Type} (d : α → α → ℚ) (self : Entry α) :
    List (Entry α) → Option Nat × Option ℚ → Option Nat × Option ℚ
  | [], acc => acc
  | e :: rest, acc =>
    updGo d self rest
      (if e.id = self.id then acc
       else
         match acc.2 with
         | none => (some e.id, some (Tree.get_dist d self.tree e.tree))
         | some m =>
           if Tree.get_dist d self.tree e.tree < m then
             (some e.id, some (Tree.get_dist d self.tree e.tree))
           else acc)

/-- `Node.update_distances`: recompute and store `nn` / `dist_to_NN`. -/
def update_distances {α : Type} (d : α → α → ℚ) (self : Entry α)
    (clusters : List (Entry α)) : Entry α :=
  let r := updGo d self clusters (none, none)
  { self with nn := r.1, dist_to_NN := r.2 }

/-- The ways `build_tree` can raise in Python. -/
inductive BuildError where
  /-- `NameError`: the loop of `_get_closest_pair` never ran, `c1` unbound. -/
  | noClosestPair
  /-- `assert node.get_nn() is not None` in `_get_closest_pair`. -/
  | nnIsNone
  /-- `KeyError` from `clusters.remove(c2)` when `c2` is not in the set. -/
  | removeMissing
  /-- `assert len(clusters) == 1, "UPGMA tree construction failed"`. -/
  | constructionFailed
deriving DecidableEq

/-- Python 2 comparison `dist_to_NN < min_dist` combined with the guard
`min_dist is None`: `None` compares less than every number. -/
def distLt : Option ℚ → Option ℚ → Bool
  | _, none => true
  | none, some _ => true
  | some p, some q => decide (p < q)

/-- The loop of `UPGMA._get_closest_pair`. -/
def gcpGo {α : Type} : List (Entry α) →
    Option (Entry α × Nat) × Option ℚ →
    Except BuildError (Option (Entry α × Nat) × Option ℚ)
  | [], acc => .ok acc
  | e :: rest, (best, min_dist) =>
    if distLt e.dist_to_NN min_dist then
      match e.nn with
      | none => .error .nnIsNone
      | some c2 => gcpGo rest (some (e, c2), e.dist_to_NN)
    else gcpGo rest (best, min_dist)

/-- `UPGMA._get_closest_pair`: the cluster with smallest cached distance and
its cached nearest neighbor. -/
def get_closest_pair {α : Type} (clusters : List (Entry α)) :
    Except BuildError (Entry α × Nat) :=
  match gcpGo clusters (none, none) with
  | .error e => .error e
  | .ok (some p, _) => .ok p
  | .ok (none, _) => .error .noClosestPair

/-- One iteration of the merge loop of `UPGMA.build_tree`: find the closest
pair, remove both, add the new OTU (with a fresh id drawn from the counter),
update its distances, then recompute every cluster whose cached `nn` was one
of the merged pair. -/
def step {α : Type} (d : α → α → ℚ) (st : List (Entry α) × Nat) :
    Except BuildError (List (Entry α) × Nat) :=
  match get_closest_pair st.1 with
  | .error e => .error e
  | .ok (c1, c2id) =>
    let rest1 := st.1.filter (fun e => e.id != c1.id)
    match rest1.find? (fun e => e.id == c2id) with
    | none => .error .removeMissing
    | some c2 =>
      let rest := rest1.filter (fun e => e.id != c2id)
      let new_node : Entry α := ⟨st.2, Tree.node c1.tree c2.tree, none, none⟩
      let clusters1 := rest ++ [new_node]
      let new_node2 := update_distances d new_node clusters1
      let clusters2 := rest ++ [new_node2]
      let clusters3 := clusters2.map (fun e =>
        if e.nn == some c1.id || e.nn == some c2id then
          update_distances d e clusters2
        else e)
      .ok (clusters3, st.2 + 1)

/-- The initial active set: one leaf `Entry` per taxon (ids in input order,
embedding the distinct Python objects), each given its initial
`update_distances` pass; the counter continues after the leaf ids. -/
def initState {α : Type} (d : α → α → ℚ) (taxa : List α) :
    List (Entry α) × Nat :=
  let base := taxa.enum.map (fun p => (⟨p.1, Tree.leaf p.2, none, none⟩ : Entry α))
  (base.map (fun e => update_distances d e base), taxa.length)

/-- The `for i in range(len(clusters) - 1)` loop: run `step` `k` times. -/
def buildLoop {α : Type} (d : α → α → ℚ) :
    Nat → List (Entry α) × Nat → Except BuildError (List (Entry α) × Nat)
  | 0, st => .ok st
  | k + 1, st =>
    match step d st with
    | .error e => .error e
    | .ok st2 => buildLoop d k st2

/-- `UPGMA.__init__` + `UPGMA.build_tree`: build the full tree. -/
def build_tree {α : Type} (d : α → α → ℚ) (taxa : List α) :
    Except BuildError (Tree α) :=
  match buildLoop d (taxa.length - 1) (initState d taxa) with
  | .error e => .error e
  | .ok (clusters, _) =>
    match clusters with
    | [c] => .ok c.tree
    | _ => .error .constructionFailed

/-- `UPGMA.get_largest_branch` on the root tree.  A leaf root has
`right = None`, so its `left` slot — the raw taxon — is returned;
an OTU root returns the child with more taxa, the left one on ties. -/
def get_largest_branch {α : Type} (t : Tree α) : Child α :=
  match t with
  | .leaf a => Tree.get_left (.leaf a)
  | .node l r => if l.len < r.len then .cluster r else .cluster l

/-- The demo's `simple_diff` distance: absolute difference. -/
def distAbs (a b : ℚ) : ℚ := |a - b|

/-- Spec-side nested-sum formulation of the numerator of `distance_to`. -/
def pairSum {α : Type} (d : α → α → ℚ) (l1 l2 : List α) : ℚ :=
  (l1.map (fun a => (l2.map (fun b => d a b)).sum)).sum

/-! ## Proof-side definitions: invariants and the merge decomposition -/

/-- Accumulator invariant for the fold of `update_distances` over a
processed prefix `L`. -/
def UpdAcc {α : Type} (d : α → α → ℚ) (self : Entry α) (L : List (Entry α)) :
    Option Nat × Option ℚ → Prop
  | (some y, some m) => ∃ e ∈ L, e.id = y ∧ e.id ≠ self.id ∧
      m = Tree.get_dist d self.tree e.tree ∧
      ∀ z ∈ L, z.id ≠ self.id → m ≤ Tree.get_dist d self.tree z.tree
  | (none, none) => ∀ e ∈ L, e.id = self.id
  | _ => False

/-- Cache fields needed by the closest-pair scan. -/
def EntryCache {α : Type} (e : Entry α) : Prop :=
  (∃ q, e.dist_to_NN = some q) ∧ ∃ i, e.nn = some i

/-- Accumulator invariant for the scan of `_get_closest_pair`. -/
def GcpAcc {α : Type} (L : List (Entry α)) :
    Option (Entry α × Nat) × Option ℚ → Prop
  | (some (c, c2), some m) => c ∈ L ∧ c.nn = some c2 ∧ c.dist_to_NN = some m ∧
      ∀ e ∈ L, ∃ q, e.dist_to_NN = some q ∧ m ≤ q
  | (none, none) => L = []
  | _ => False

/-- Distinct active clusters have distinct ids (object identity). -/
def IdsNodup {α : Type} (S : List (Entry α)) : Prop := (S.map Entry.id).Nodup

/-- The cache invariant maintained at the top of each merge iteration:
every active cluster caches a distinct active cluster as nearest neighbor,
together with the distance to it. -/
def Inv {α : Type} (d : α → α → ℚ) (S : List (Entry α)) : Prop :=
  IdsNodup S ∧ ∀ e ∈ S, ∃ y ∈ S, y.id ≠ e.id ∧ e.nn = some y.id ∧
    e.dist_to_NN = some (Tree.get_dist d e.tree y.tree)

/-- The optimality invariant: every cached distance is a lower bound on the
distances from its cluster to all other active clusters. -/
def MinInv {α : Type} (d : α → α → ℚ) (S : List (Entry α)) : Prop :=
  ∀ e ∈ S, ∀ q, e.dist_to_NN = some q →
    ∀ z ∈ S, z.id ≠ e.id → q ≤ Tree.get_dist d e.tree z.tree

/-- The id counter exceeds every active id (ids are never reused). -/
def Fresh {α : Type} (st : List (Entry α) × Nat) : Prop :=
  ∀ e ∈ st.1, e.id < st.2

/-- The survivors of a merge: the active set minus the two merged clusters. -/
def mergeRest {α : Type} (S : List (Entry α)) (c1 c2 : Entry α) : List (Entry α) :=
  (S.filter (fun e => e.id != c1.id)).filter (fun e => e.id != c2.id)

/-- The freshly created OTU after its `update_distances` pass. -/
def mergeNew {α : Type} (d : α → α → ℚ) (S : List (Entry α)) (ctr : Nat)
    (c1 c2 : Entry α) : Entry α :=
  update_distances d ⟨ctr, Tree.node c1.tree c2.tree, none, none⟩
    (mergeRest S c1 c2 ++ [⟨ctr, Tree.node c1.tree c2.tree, none, none⟩])

/-- The active set right after the new OTU got its nearest neighbor. -/
def mergeC2 {α : Type} (d : α → α → ℚ) (S : List (Entry α)) (ctr : Nat)
    (c1 c2 : Entry α) : List (Entry α) :=
  mergeRest S c1 c2 ++ [mergeNew d S ctr c1 c2]

/-- The full result of one merge iteration. -/
def stepResult {α : Type} (d : α → α → ℚ) (S : List (Entry α)) (ctr : Nat)
    (c1 c2 : Entry α) : List (Entry α) :=
  (mergeC2 d S ctr c1 c2).map (fun e =>
    if e.nn == some c1.id || e.nn == some c2.id then
      update_distances d e (mergeC2 d S ctr c1 c2)
    else e)

/-- Identity-plus-shape of an entry, which a cache update never changes. -/
def key {α : Type} (e : Entry α) : Nat × Tree α := (e.id, e.tree)

/-- Statement of claim C3: sizes of the active set along the loop, and
success of the post-loop single-cluster check. -/
def SizesOk {α : Type} (d : α → α → ℚ) (taxa : List α) : Prop :=
  (∀ i, i + 1 ≤ taxa.length →
    ∃ S c, buildLoop d i (initState d taxa) = .ok (S, c) ∧
      S.length + i = taxa.length) ∧
  ∃ root, build_tree d taxa = .ok root

/-- C9 statement: at a scan point, every active cluster caches a distinct
active member and a numeric distance, and the scan itself succeeds. -/
def ScanSafe {α : Type} (d : α → α → ℚ) (taxa : List α) (i : Nat) : Prop :=
  ∃ S c, buildLoop d i (initState d taxa) = .ok (S, c) ∧
    (∀ e ∈ S, ∃ y ∈ S, y.id ≠ e.id ∧ e.nn = some y.id ∧
      ∃ q, e.dist_to_NN = some q) ∧
    ∃ p, get_closest_pair S = .ok p

/-- C7 statement: shape, taxa multiset and display string of a built tree. -/
def TreeShapeOk {α : Type} (d : α → α → ℚ) (taxa : List α) : Prop :=
  ∃ root, build_tree d taxa = .ok root ∧
    root.leaves.length = taxa.length ∧
    root.internal = taxa.length - 1 ∧
    root.leaves.Perm taxa ∧
    root.len = taxa.length ∧
    ∀ f : α → String,
      root.toDisplay f = String.intercalate "-" (root.leaves.map f)

/-- C2 statement: at the start of iteration `i`, the scan picks a cluster
and its cached neighbor forming a globally closest ordered pair, and the
step removes exactly those two, appends their OTU, and leaves every
cluster whose cached neighbor survived untouched. -/
def ClosestPairStep {α : Type} (d : α → α → ℚ) (taxa : List α) (i : Nat) : Prop :=
  ∃ S c c1 c2 S2,
    buildLoop d i (initState d taxa) = .ok (S, c) ∧
    get_closest_pair S = .ok (c1, c2.id) ∧
    c1 ∈ S ∧ c2 ∈ S ∧ c2.id ≠ c1.id ∧ c1.nn = some c2.id ∧
    c1.dist_to_NN = some (Tree.get_dist d c1.tree c2.tree) ∧
    (∀ X ∈ S, ∀ Z ∈ S, Z.id ≠ X.id →
      Tree.get_dist d c1.tree c2.tree ≤ Tree.get_dist d X.tree Z.tree) ∧
    step d (S, c) = .ok (S2, c + 1) ∧
    S2.length + 1 = S.length ∧
    S2.map Entry.tree =
      ((S.filter (fun e => e.id != c1.id)).filter
        (fun e => e.id != c2.id)).map Entry.tree ++
        [Tree.node c1.tree c2.tree] ∧
    (∀ e ∈ S, e.id ≠ c1.id → e.id ≠ c2.id →
      e.nn ≠ some c1.id → e.nn ≠ some c2.id → e ∈ S2)

/-! ## Basic facts about trees and distances -/

theorem leaves_ne_nil {α : Type} (t : Tree α) : t.leaves ≠ [] := by
  induction t with
  | leaf a => simp [Tree.leaves]
  | node l r ihl ihr => simp [Tree.leaves, ihl]

theorem len_pos {α : Type} (t : Tree α) : 0 < t.len :=
  List.length_pos.mpr (leaves_ne_nil t)

theorem one_le_len_cast {α : Type} (t : Tree α) : (1 : ℚ) ≤ (t.len : ℚ) := by
  exact_mod_cast Nat.one_le_iff_ne_zero.mpr (Nat.pos_iff_ne_zero.mp (len_pos t))

/-- Every tree of the embedding is a full binary tree: one fewer OTU than taxa. -/
theorem internal_add_one {α : Type} (t : Tree α) : t.internal + 1 = t.len := by
  induction t with
  | leaf a => simp [Tree.internal, Tree.len, Tree.leaves]
  | node l r ihl ihr =>
    simp only [Tree.internal, Tree.len, Tree.leaves, List.length_append] at *
    omega

theorem pairSum_nil_left {α : Type} (d : α → α → ℚ) (l2 : List α) :
    pairSum d [] l2 = 0 := rfl

theorem pairSum_cons {α : Type} (d : α → α → ℚ) (a : α) (t l2 : List α) :
    pairSum d (a :: t) l2 = (l2.map (fun b => d a b)).sum + pairSum d t l2 := by
  simp [pairSum]

/-- The sum over `itertools.product` equals the nested sum. -/
theorem prodList_map_sum {α : Type} (d : α → α → ℚ) :
    ∀ l1 l2 : List α,
      ((prodList l1 l2).map (fun p => d p.1 p.2)).sum = pairSum d l1 l2 := by
  intro l1
  induction l1 with
  | nil => intro l2; rfl
  | cons a t ih =>
    intro l2
    simp [prodList, List.map_append, List.sum_append, pairSum_cons, ih,
      Function.comp_def]

theorem get_dist_eq {α : Type} (d : α → α → ℚ) (t1 t2 : Tree α) :
    Tree.get_dist d t1 t2 =
      pairSum d t1.leaves t2.leaves / ((t1.len : ℚ) + (t2.len : ℚ)) := by
  rw [Tree.get_dist, prodList_map_sum]

theorem pairSum_append_right {α : Type} (d : α → α → ℚ) (l1 l2 l3 : List α) :
    pairSum d l1 (l2 ++ l3) = pairSum d l1 l2 + pairSum d l1 l3 := by
  induction l1 with
  | nil => simp [pairSum_nil_left]
  | cons a t ih =>
    simp only [pairSum_cons, List.map_append, List.sum_append, ih]
    ring

theorem pairSum_nonneg {α : Type} {d : α → α → ℚ} (hd : ∀ a b, 0 ≤ d a b)
    (l1 l2 : List α) : 0 ≤ pairSum d l1 l2 := by
  apply List.sum_nonneg
  intro x hx
  obtain ⟨a, _, rfl⟩ := List.mem_map.mp hx
  apply List.sum_nonneg
  intro y hy
  obtain ⟨b, _, rfl⟩ := List.mem_map.mp hy
  exact hd a b

theorem get_dist_nonneg {α : Type} {d : α → α → ℚ} (hd : ∀ a b, 0 ≤ d a b)
    (t1 t2 : Tree α) : 0 ≤ Tree.get_dist d t1 t2 := by
  rw [get_dist_eq]
  apply div_nonneg (pairSum_nonneg hd _ _)
  have h1 := one_le_len_cast t1
  have h2 := one_le_len_cast t2
  linarith

theorem len_cast_add_pos {α : Type} (t1 t2 : Tree α) :
    (0 : ℚ) < (t1.len : ℚ) + (t2.len : ℚ) := by
  have h1 := one_le_len_cast t1
  have h2 := one_le_len_cast t2
  linarith

/-- Reducibility of the (nonstandard sum-normalized) average: the distance
from `x` to a freshly merged OTU is at least the smaller of the distances
from `x` to the two merged clusters, provided the distance function is
nonnegative.  This is what keeps the stale nearest-neighbor caches valid. -/
theorem get_dist_node_ge {α : Type} {d : α → α → ℚ} (hd : ∀ a b, 0 ≤ d a b)
    (x c1 c2 : Tree α) :
    min (Tree.get_dist d x c1) (Tree.get_dist d x c2) ≤
      Tree.get_dist d x (Tree.node c1 c2) := by
  have hx := one_le_len_cast x
  have h1 := one_le_len_cast c1
  have h2 := one_le_len_cast c2
  have hA : (0 : ℚ) < (x.len : ℚ) + (c1.len : ℚ) := by linarith
  have hB : (0 : ℚ) < (x.len : ℚ) + (c2.len : ℚ) := by linarith
  set s1 := pairSum d x.leaves c1.leaves with hs1
  set s2 := pairSum d x.leaves c2.leaves with hs2
  set m := min (Tree.get_dist d x c1) (Tree.get_dist d x c2) with hm
  have hmnn : 0 ≤ m :=
    le_min (get_dist_nonneg hd x c1) (get_dist_nonneg hd x c2)
  have hlv : (Tree.node c1 c2).leaves = c1.leaves ++ c2.leaves := rfl
  have hlen : ((Tree.node c1 c2).len : ℚ) = (c1.len : ℚ) + (c2.len : ℚ) := by
    simp [Tree.len, hlv, List.length_append]
  have hm1 : m * ((x.len : ℚ) + (c1.len : ℚ)) ≤ s1 := by
    have := min_le_left (Tree.get_dist d x c1) (Tree.get_dist d x c2)
    rw [← hm] at this
    rw [get_dist_eq] at this
    exact (le_div_iff₀ hA).mp this
  have hm2 : m * ((x.len : ℚ) + (c2.len : ℚ)) ≤ s2 := by
    have := min_le_right (Tree.get_dist d x c1) (Tree.get_dist d x c2)
    rw [← hm] at this
    rw [get_dist_eq] at this
    exact (le_div_iff₀ hB).mp this
  rw [get_dist_eq, hlv, pairSum_append_right, hlen, ← hs1, ← hs2]
  have hC : (0 : ℚ) < (x.len : ℚ) + ((c1.len : ℚ) + (c2.len : ℚ)) := by linarith
  rw [le_div_iff₀ hC]
  nlinarith [mul_nonneg hmnn (le_trans zero_le_one hx)]

/-- Helper for evaluating `distAbs` on concrete rationals (kernel reduction
of `ℚ` is unavailable, so `abs` is rewritten into a sign test). -/
theorem distAbs_eval (a b : ℚ) : distAbs a b = if a ≤ b then b - a else a - b := by
  unfold distAbs
  rcases le_or_lt a b with h | h
  · rw [if_pos h, abs_of_nonpos (by linarith), neg_sub]
  · rw [if_neg (not_le.mpr h), abs_of_pos (by linarith)]

/-! ## Small-input runs of the engine -/

/-- The initial pass on two taxa caches, for each leaf, the other leaf as
nearest neighbor with the sum-normalized distance. -/
theorem init_two {α : Type} (d : α → α → ℚ) (a b : α) :
    initState d [a, b] =
      ([⟨0, .leaf a, some 1, some (d a b / 2)⟩,
        ⟨1, .leaf b, some 0, some (d b a / 2)⟩], 2) := by
  simp [initState, List.enum, List.enumFrom, update_distances, updGo, Tree.get_dist,
    prodList, Tree.leaves, Tree.len]
  norm_num

/-- On two taxa the root is the OTU of the two leaves, in one of the two
orders (which one depends on the comparison of the two cached distances). -/
theorem build_two {α : Type} (d : α → α → ℚ) (a b : α) :
    build_tree d [a, b] = .ok (.node (.leaf a) (.leaf b)) ∨
      build_tree d [a, b] = .ok (.node (.leaf b) (.leaf a)) := by
  rw [build_tree, init_two]
  by_cases h : d b a / 2 < d a b / 2
  · right
    simp [buildLoop, step, get_closest_pair, gcpGo, distLt, h, update_distances, updGo,
      List.find?, List.filter]
  · left
    simp [buildLoop, step, get_closest_pair, gcpGo, distLt, h, update_distances, updGo,
      List.find?, List.filter]

/-! ## Claims settled without the loop invariant -/

/-- C1: `get_dist` returns the sum of `distance_function(a, b)` over all
leaf pairs, divided by the SUM `len(self) + len(other)` of the two leaf
counts — and, at a concrete input with leaf counts 2 and 1, this sum
normalization differs from a product normalization. -/
theorem C1 :
    (∀ (α : Type) (d : α → α → ℚ) (t1 t2 : Tree α),
      Tree.get_dist d t1 t2 =
        pairSum d t1.leaves t2.leaves / ((t1.len : ℚ) + (t2.len : ℚ))) ∧
    Tree.get_dist distAbs (.node (.leaf 0) (.leaf 2)) (.leaf 3) =
      pairSum distAbs [0, 2] [3] / ((2 : ℚ) + 1) ∧
    pairSum distAbs [0, 2] [3] / ((2 : ℚ) + 1) ≠
      pairSum distAbs [0, 2] [3] / ((2 : ℚ) * 1) := by
  refine ⟨fun α d t1 t2 => get_dist_eq d t1 t2, ?_, ?_⟩
  · rw [get_dist_eq]
    norm_num [Tree.leaves, Tree.len]
  · norm_num [pairSum, distAbs_eval]

/-- C4 counterexample: with zero items the code does NOT fail with a
distinct `EmptyInput` condition; the merge loop runs zero times and the
failure is the post-loop `assert len(clusters) == 1, "UPGMA tree
construction failed"` — the very same invariant assertion. -/
theorem C4_counterexample :
    build_tree distAbs ([] : List ℚ) = .error .constructionFailed := rfl

/-- C4 amended: for every distance function, construction on zero items
fails via the post-loop invariant assertion (there is no separate
`EmptyInput` error in the code). -/
theorem C4_amended : ∀ (α : Type) (d : α → α → ℚ),
    build_tree d ([] : List α) = .error .constructionFailed :=
  fun _ _ => rfl

/-- C6: on a single item the construction succeeds with zero merge
iterations (`range(len(clusters) - 1)` is empty), the root is the single
leaf holding the item, and its leaf count is 1. -/
theorem C6 : ∀ (α : Type) (d : α → α → ℚ) (x : α),
    build_tree d [x] = .ok (.leaf x) ∧
    (Tree.leaf x).len = 1 ∧
    [x].length - 1 = 0 :=
  fun _ _ _ => ⟨rfl, rfl, rfl⟩

/-- C8: `get_largest_branch` returns the left child when the right slot is
absent (the root is a leaf, whose `left` slot holds the raw taxon), and on
an OTU root returns the child with the larger leaf count, the left child on
ties.  (The remaining source branch, left child absent, is unreachable on a
built tree: a leaf stores its taxon in `left` and an OTU has two children.) -/
theorem C8 :
    (∀ (α : Type) (l r : Tree α),
      (r.len ≤ l.len → get_largest_branch (.node l r) = .cluster l) ∧
      (l.len < r.len → get_largest_branch (.node l r) = .cluster r)) ∧
    (∀ (α : Type) (a : α),
      Tree.get_right (.leaf a) = .none ∧
      get_largest_branch (.leaf a) = Tree.get_left (.leaf a)) := by
  constructor
  · intro α l r
    constructor
    · intro h
      simp [get_largest_branch, Nat.not_lt.mpr h]
    · intro h
      simp [get_largest_branch, h]
  · intro α a
    exact ⟨rfl, rfl⟩

/-- C8 witness: the tie-break and larger-branch cases at concrete trees. -/
theorem C8_witness :
    get_largest_branch (.node (.leaf (1 : ℚ)) (.node (.leaf 2) (.leaf 3))) =
      .cluster (.node (.leaf 2) (.leaf 3)) ∧
    get_largest_branch (.node (.leaf (1 : ℚ)) (.leaf 2)) = .cluster (.leaf 1) :=
  ⟨(C8.1 ℚ (.leaf 1) (.node (.leaf 2) (.leaf 3))).2 (by decide),
   (C8.1 ℚ (.leaf 1) (.leaf 2)).1 (by decide)⟩

/-- C10: for a single item the built root is the leaf itself, whose `right`
slot is `None`; `get_largest_branch` therefore returns its `left` slot,
which holds the raw original item (not a cluster). -/
theorem C10 : ∀ (α : Type) (d : α → α → ℚ) (x : α),
    build_tree d [x] = .ok (.leaf x) ∧
    Tree.get_right (Tree.leaf x) = .none ∧
    get_largest_branch (.leaf x) = Tree.get_left (.leaf x) ∧
    Tree.get_left (Tree.leaf x) = .taxon x ∧
    ∀ t : Tree α, get_largest_branch (.leaf x) ≠ .cluster t := by
  intro α d x
  refine ⟨rfl, rfl, rfl, rfl, ?_⟩
  intro t h
  exact Child.noConfusion h

/-- C5 counterexample: on items `[0, 1]` with absolute-difference distance,
the distance recorded for either leaf is `1/2`, not `distance(0,1) = 1`;
likewise the first merge of the scenario `[0, 2, 3, 9]` picks the pair
`(2, 3)` but records distance `1/2`, not `1`. -/
theorem C5_counterexample :
    (initState distAbs [(0 : ℚ), 1]).1.map Entry.dist_to_NN =
      [some (1 / 2), some (1 / 2)] ∧
    distAbs 0 1 = 1 ∧ ((1 : ℚ) / 2) ≠ 1 ∧
    get_closest_pair (initState distAbs [(0 : ℚ), 2, 3, 9]).1 =
      .ok (⟨1, .leaf 2, some 2, some (1 / 2)⟩, 2) := by
  refine ⟨?_, by norm_num [distAbs_eval], by norm_num, ?_⟩
  · norm_num [initState, List.enum, List.enumFrom, update_distances, updGo,
      Tree.get_dist, prodList, Tree.leaves, Tree.len, distAbs_eval]
  · norm_num [initState, List.enum, List.enumFrom, update_distances, updGo,
      Tree.get_dist, prodList, Tree.leaves, Tree.len, distAbs_eval,
      get_closest_pair, gcpGo, distLt]

/-- C5 amended: for `n = 2` with items `[a, b]` the root is an OTU whose
children are the two leaves in some order, and the distance recorded for
leaf `a` is `d(a,b)/2` (for leaf `b`, `d(b,a)/2`) — the pairwise distance
divided by the sum `1 + 1` of the leaf counts.  In the concrete scenario
`[0, 2, 3, 9]` with absolute difference, the first merge picks `(2, 3)`
and records distance `1/2`. -/
theorem C5_amended :
    (∀ (α : Type) (d : α → α → ℚ) (a b : α),
      (initState d [a, b]).1.map Entry.dist_to_NN =
        [some (Tree.get_dist d (.leaf a) (.leaf b)),
         some (Tree.get_dist d (.leaf b) (.leaf a))] ∧
      Tree.get_dist d (.leaf a) (.leaf b) = d a b / 2 ∧
      Tree.get_dist d (.leaf b) (.leaf a) = d b a / 2 ∧
      (build_tree d [a, b] = .ok (.node (.leaf a) (.leaf b)) ∨
        build_tree d [a, b] = .ok (.node (.leaf b) (.leaf a)))) ∧
    get_closest_pair (initState distAbs [(0 : ℚ), 2, 3, 9]).1 =
      .ok (⟨1, .leaf 2, some 2, some (1 / 2)⟩, 2) := by
  constructor
  · intro α d a b
    have h2 : Tree.get_dist d (.leaf a) (.leaf b) = d a b / 2 := by
      rw [get_dist_eq]
      norm_num [pairSum, Tree.leaves, Tree.len]
    have h3 : Tree.get_dist d (.leaf b) (.leaf a) = d b a / 2 := by
      rw [get_dist_eq]
      norm_num [pairSum, Tree.leaves, Tree.len]
    refine ⟨?_, h2, h3, build_two d a b⟩
    rw [init_two, h2, h3]
    rfl
  · norm_num [initState, List.enum, List.enumFrom, update_distances, updGo,
      Tree.get_dist, prodList, Tree.leaves, Tree.len, distAbs_eval,
      get_closest_pair, gcpGo, distLt]

/-! ## The merge-loop invariants and the remaining claims -/

theorem updGo_acc {α : Type} (d : α → α → ℚ) (self : Entry α) :
    ∀ (S L : List (Entry α)) (acc : Option Nat × Option ℚ),
      UpdAcc d self L acc → UpdAcc d self (L ++ S) (updGo d self S acc) := by
  intro S
  induction S with
  | nil => intro L acc h; simpa using h
  | cons e rest ih =>
    intro L acc h
    have hstep : UpdAcc d self (L ++ [e])
        (if e.id = self.id then acc
         else
           match acc.2 with
           | none => (some e.id, some (Tree.get_dist d self.tree e.tree))
           | some m =>
             if Tree.get_dist d self.tree e.tree < m then
               (some e.id, some (Tree.get_dist d self.tree e.tree))
             else acc) := by
      by_cases hid : e.id = self.id
      · rw [if_pos hid]
        match acc, h with
        | (none, none), h =>
          intro z hz
          rcases List.mem_append.mp hz with hz | hz
          · exact h z hz
          · simp at hz; subst hz; exact hid
        | (some y, some m), h =>
          obtain ⟨w, hw, hwy, hwne, hm, hmin⟩ := h
          exact ⟨w, List.mem_append_left _ hw, hwy, hwne, hm, by
            intro z hz hzne
            rcases List.mem_append.mp hz with hz | hz
            · exact hmin z hz hzne
            · simp at hz; subst hz; exact absurd hid hzne⟩
      · rw [if_neg hid]
        match acc, h with
        | (none, none), h =>
          refine ⟨e, List.mem_append_right _ (by simp), rfl, hid, rfl, ?_⟩
          intro z hz hzne
          rcases List.mem_append.mp hz with hz | hz
          · exact absurd (h z hz) hzne
          · simp at hz; subst hz; exact le_rfl
        | (some y, some m), h =>
          obtain ⟨w, hw, hwy, hwne, hm, hmin⟩ := h
          show UpdAcc d self (L ++ [e])
            (if Tree.get_dist d self.tree e.tree < m then
              (some e.id, some (Tree.get_dist d self.tree e.tree))
            else (some y, some m))
          by_cases hlt : Tree.get_dist d self.tree e.tree < m
          · rw [if_pos hlt]
            refine ⟨e, List.mem_append_right _ (by simp), rfl, hid, rfl, ?_⟩
            intro z hz hzne
            rcases List.mem_append.mp hz with hz | hz
            · exact le_of_lt (lt_of_lt_of_le hlt (hmin z hz hzne))
            · simp at hz; subst hz; exact le_rfl
          · rw [if_neg hlt]
            refine ⟨w, List.mem_append_left _ hw, hwy, hwne, hm, ?_⟩
            intro z hz hzne
            rcases List.mem_append.mp hz with hz | hz
            · exact hmin z hz hzne
            · simp at hz; subst hz; exact le_of_not_lt hlt
    have := ih (L ++ [e]) _ hstep
    simpa [updGo, List.append_assoc] using this

theorem update_id {α : Type} (d : α → α → ℚ) (self : Entry α) (S : List (Entry α)) :
    (update_distances d self S).id = self.id := rfl

theorem update_tree {α : Type} (d : α → α → ℚ) (self : Entry α) (S : List (Entry α)) :
    (update_distances d self S).tree = self.tree := rfl

/-- When `self` has at least one peer in the scanned collection,
`update_distances` caches a true nearest neighbor among the peers. -/
theorem update_distances_spec {α : Type} (d : α → α → ℚ) (self : Entry α)
    (S : List (Entry α)) (h : ∃ e ∈ S, e.id ≠ self.id) :
    ∃ y ∈ S, y.id ≠ self.id ∧
      (update_distances d self S).nn = some y.id ∧
      (update_distances d self S).dist_to_NN =
        some (Tree.get_dist d self.tree y.tree) ∧
      ∀ z ∈ S, z.id ≠ self.id →
        Tree.get_dist d self.tree y.tree ≤ Tree.get_dist d self.tree z.tree := by
  have hacc := updGo_acc d self S [] (none, none) (by intro e he; simp at he)
  simp only [List.nil_append] at hacc
  rw [update_distances]
  rcases hr : updGo d self S (none, none) with ⟨rnn, rdist⟩
  rw [hr] at hacc
  match rnn, rdist, hacc with
  | none, none, hacc =>
    obtain ⟨e, he, hene⟩ := h
    exact absurd (hacc e he) hene
  | some y, some m, hacc =>
    obtain ⟨w, hw, hwy, hwne, hm, hmin⟩ := hacc
    subst hm
    exact ⟨w, hw, hwne, by simp [hwy], by simp, hmin⟩

/-- When `self` has no peer (cardinality-one active set), the
nearest-neighbor fields are cleared. -/
theorem update_distances_self {α : Type} (d : α → α → ℚ) (self : Entry α)
    (S : List (Entry α)) (h : ∀ e ∈ S, e.id = self.id) :
    (update_distances d self S).nn = none ∧
    (update_distances d self S).dist_to_NN = none := by
  have hacc := updGo_acc d self S [] (none, none) (by intro e he; simp at he)
  simp only [List.nil_append] at hacc
  rw [update_distances]
  rcases hr : updGo d self S (none, none) with ⟨rnn, rdist⟩
  rw [hr] at hacc
  match rnn, rdist, hacc with
  | none, none, _ => exact ⟨rfl, rfl⟩
  | some y, some m, hacc =>
    obtain ⟨w, hw, hwy, hwne, hm, hmin⟩ := hacc
    exact absurd (h w hw) hwne

theorem gcpGo_acc {α : Type} :
    ∀ (S L : List (Entry α)) (acc : Option (Entry α × Nat) × Option ℚ),
      (∀ e ∈ S, EntryCache e) → GcpAcc L acc →
      ∃ acc2, gcpGo S acc = .ok acc2 ∧ GcpAcc (L ++ S) acc2 := by
  intro S
  induction S with
  | nil =>
    intro L acc hc h
    exact ⟨acc, rfl, by simpa using h⟩
  | cons e rest ih =>
    intro L acc hc h
    obtain ⟨⟨qe, hqe⟩, ⟨ie, hie⟩⟩ := hc e (by simp)
    have hcrest : ∀ x ∈ rest, EntryCache x := fun x hx => hc x (by simp [hx])
    rcases acc with ⟨best, min_dist⟩
    match best, min_dist, h with
    | none, none, h =>
      subst h
      have : distLt e.dist_to_NN none = true := by rw [distLt.eq_def]; split <;> simp_all
      rw [gcpGo, if_pos this, hie]
      have hstep : GcpAcc ([] ++ [e]) (some (e, ie), e.dist_to_NN) := by
        rw [hqe]
        exact ⟨by simp, hie, hqe, by
          intro x hx
          simp at hx; subst hx
          exact ⟨qe, hqe, le_rfl⟩⟩
      obtain ⟨acc2, hrun, hacc2⟩ := ih ([] ++ [e]) _ hcrest hstep
      exact ⟨acc2, hrun, by simpa using hacc2⟩
    | some (c, c2), some m, h =>
      obtain ⟨hcL, hcnn, hcdist, hmin⟩ := h
      rw [gcpGo]
      by_cases hlt : qe < m
      · have : distLt e.dist_to_NN (some m) = true := by
          rw [hqe, distLt]; simpa using hlt
        rw [if_pos this, hie]
        have hstep : GcpAcc (L ++ [e]) (some (e, ie), e.dist_to_NN) := by
          rw [hqe]
          refine ⟨by simp, hie, hqe, ?_⟩
          intro x hx
          rcases List.mem_append.mp hx with hx | hx
          · obtain ⟨qx, hqx, hmqx⟩ := hmin x hx
            exact ⟨qx, hqx, le_trans (le_of_lt hlt) hmqx⟩
          · simp at hx; subst hx; exact ⟨qe, hqe, le_rfl⟩
        obtain ⟨acc2, hrun, hacc2⟩ := ih (L ++ [e]) _ hcrest hstep
        exact ⟨acc2, hrun, by simpa [List.append_assoc] using hacc2⟩
      · have : distLt e.dist_to_NN (some m) = false := by
          rw [hqe, distLt]; simpa using hlt
        rw [if_neg (by simp [this])]
        have hstep : GcpAcc (L ++ [e]) (some (c, c2), some m) := by
          refine ⟨List.mem_append_left _ hcL, hcnn, hcdist, ?_⟩
          intro x hx
          rcases List.mem_append.mp hx with hx | hx
          · exact hmin x hx
          · simp at hx; subst hx; exact ⟨qe, hqe, le_of_not_lt hlt⟩
        obtain ⟨acc2, hrun, hacc2⟩ := ih (L ++ [e]) _ hcrest hstep
        exact ⟨acc2, hrun, by simpa [List.append_assoc] using hacc2⟩

/-- When every active cluster has cached fields, the closest-pair scan
succeeds and returns a cluster whose cached distance is minimal. -/
theorem get_closest_pair_spec {α : Type} (S : List (Entry α)) (hS : S ≠ [])
    (hc : ∀ e ∈ S, EntryCache e) :
    ∃ c1 c2id m, get_closest_pair S = .ok (c1, c2id) ∧ c1 ∈ S ∧
      c1.nn = some c2id ∧ c1.dist_to_NN = some m ∧
      ∀ e ∈ S, ∃ q, e.dist_to_NN = some q ∧ m ≤ q := by
  obtain ⟨acc2, hrun, hacc2⟩ := gcpGo_acc S [] (none, none) hc rfl
  simp only [List.nil_append] at hacc2
  rcases acc2 with ⟨best, min_dist⟩
  match best, min_dist, hacc2 with
  | none, none, hacc2 => exact absurd hacc2 hS
  | some (c, c2), some m, hacc2 =>
    obtain ⟨hcS, hcnn, hcdist, hmin⟩ := hacc2
    exact ⟨c, c2, m, by rw [get_closest_pair, hrun], hcS, hcnn, hcdist, hmin⟩

theorem id_inj {α : Type} {S : List (Entry α)} (hnd : IdsNodup S)
    {x y : Entry α} (hx : x ∈ S) (hy : y ∈ S) (h : x.id = y.id) : x = y :=
  List.inj_on_of_nodup_map hnd hx hy h

theorem perm_cons_filter {α : Type} {S : List (Entry α)} (hnd : IdsNodup S)
    {c : Entry α} (hc : c ∈ S) :
    S.Perm (c :: S.filter (fun e => e.id != c.id)) := by
  induction S with
  | nil => simp at hc
  | cons a T ih =>
    rw [IdsNodup, List.map_cons, List.nodup_cons] at hnd
    by_cases hac : a = c
    · subst hac
      have hT : T.filter (fun e => e.id != a.id) = T := by
        apply List.filter_eq_self.mpr
        intro e he
        simp only [bne_iff_ne, ne_eq, decide_eq_true_eq]
        intro hea
        exact hnd.1 (hea ▸ List.mem_map_of_mem Entry.id he)
      simp [hT]
    · have hcT : c ∈ T := by
        rcases List.mem_cons.mp hc with h | h
        · exact absurd h.symm hac
        · exact h
      have haid : a.id ≠ c.id := by
        intro h
        exact hnd.1 (h ▸ List.mem_map_of_mem Entry.id hcT)
      have hperm := ih hnd.2 hcT
      have hfil : (a :: T).filter (fun e => e.id != c.id) =
          a :: T.filter (fun e => e.id != c.id) :=
        List.filter_cons_of_pos (by simpa using haid)
      rw [hfil]
      exact (hperm.cons a).trans (List.Perm.swap c a _)

theorem exists_mem_id_ne {α : Type} {S : List (Entry α)} (hnd : IdsNodup S)
    (h2 : 2 ≤ S.length) (b : Entry α) : ∃ y ∈ S, y.id ≠ b.id := by
  match S, h2 with
  | a1 :: a2 :: T, _ =>
    rw [IdsNodup, List.map_cons, List.map_cons, List.nodup_cons] at hnd
    have h12 : a1.id ≠ a2.id := by
      intro h
      exact hnd.1 (by simp [h])
    by_cases h1 : a1.id = b.id
    · exact ⟨a2, by simp, fun h => h12 (h1 ▸ h ▸ rfl)⟩
    · exact ⟨a1, by simp, h1⟩

theorem mem_mergeRest {α : Type} {S : List (Entry α)} {c1 c2 e : Entry α} :
    e ∈ mergeRest S c1 c2 ↔ e ∈ S ∧ e.id ≠ c1.id ∧ e.id ≠ c2.id := by
  simp only [mergeRest, List.mem_filter, bne_iff_ne, ne_eq, and_assoc]

theorem perm_merge {α : Type} {S : List (Entry α)} {c1 c2 : Entry α}
    (hnd : IdsNodup S) (hc1 : c1 ∈ S) (hc2 : c2 ∈ S) (hne : c2.id ≠ c1.id) :
    S.Perm (c1 :: c2 :: mergeRest S c1 c2) := by
  have p1 := perm_cons_filter hnd hc1
  have hnd1 : IdsNodup (S.filter (fun e => e.id != c1.id)) :=
    ((List.filter_sublist S).map Entry.id).nodup hnd
  have hc2f : c2 ∈ S.filter (fun e => e.id != c1.id) :=
    List.mem_filter.mpr ⟨hc2, by simpa using hne⟩
  have p2 := perm_cons_filter hnd1 hc2f
  exact p1.trans (p2.cons c1)

theorem length_mergeRest {α : Type} {S : List (Entry α)} {c1 c2 : Entry α}
    (hnd : IdsNodup S) (hc1 : c1 ∈ S) (hc2 : c2 ∈ S) (hne : c2.id ≠ c1.id) :
    (mergeRest S c1 c2).length + 2 = S.length := by
  have := (perm_merge hnd hc1 hc2 hne).length_eq
  simpa using this.symm

theorem mergeC2_map_key {α : Type} (d : α → α → ℚ) (S : List (Entry α))
    (ctr : Nat) (c1 c2 : Entry α) :
    (mergeC2 d S ctr c1 c2).map key =
      (mergeRest S c1 c2).map key ++ [(ctr, Tree.node c1.tree c2.tree)] := by
  simp [mergeC2, mergeNew, key, update_distances]

theorem stepResult_map_key {α : Type} (d : α → α → ℚ) (S : List (Entry α))
    (ctr : Nat) (c1 c2 : Entry α) :
    (stepResult d S ctr c1 c2).map key = (mergeC2 d S ctr c1 c2).map key := by
  rw [stepResult, List.map_map]
  apply List.map_congr_left
  intro e he
  show key (if (e.nn == some c1.id || e.nn == some c2.id) = true then
      update_distances d e (mergeC2 d S ctr c1 c2) else e) = key e
  by_cases h : (e.nn == some c1.id || e.nn == some c2.id) = true
  · rw [if_pos h]; rfl
  · rw [if_neg h]

theorem mem_of_map_key_eq {α : Type} {A B : List (Entry α)}
    (h : A.map key = B.map key) {a : Entry α} (ha : a ∈ A) :
    ∃ b ∈ B, b.id = a.id ∧ b.tree = a.tree := by
  have : key a ∈ B.map key := by rw [← h]; exact List.mem_map_of_mem key ha
  obtain ⟨b, hb, hkb⟩ := List.mem_map.mp this
  rw [key, key, Prod.mk.injEq] at hkb
  exact ⟨b, hb, hkb.1, hkb.2⟩

theorem stepResult_length {α : Type} (d : α → α → ℚ) {S : List (Entry α)}
    (ctr : Nat) {c1 c2 : Entry α}
    (hnd : IdsNodup S) (hc1 : c1 ∈ S) (hc2 : c2 ∈ S) (hne : c2.id ≠ c1.id) :
    (stepResult d S ctr c1 c2).length + 1 = S.length := by
  have h1 : (stepResult d S ctr c1 c2).length = (mergeRest S c1 c2).length + 1 := by
    have := congrArg List.length
      ((stepResult_map_key d S ctr c1 c2).trans (mergeC2_map_key d S ctr c1 c2))
    simpa using this
  have h2 := length_mergeRest hnd hc1 hc2 hne
  omega

theorem stepResult_map_id {α : Type} (d : α → α → ℚ) (S : List (Entry α))
    (ctr : Nat) (c1 c2 : Entry α) :
    (stepResult d S ctr c1 c2).map Entry.id =
      (mergeRest S c1 c2).map Entry.id ++ [ctr] := by
  have h := congrArg (List.map Prod.fst)
    ((stepResult_map_key d S ctr c1 c2).trans (mergeC2_map_key d S ctr c1 c2))
  simpa [List.map_map, Function.comp_def, key] using h

theorem stepResult_map_tree {α : Type} (d : α → α → ℚ) (S : List (Entry α))
    (ctr : Nat) (c1 c2 : Entry α) :
    (stepResult d S ctr c1 c2).map Entry.tree =
      (mergeRest S c1 c2).map Entry.tree ++ [Tree.node c1.tree c2.tree] := by
  have h := congrArg (List.map Prod.snd)
    ((stepResult_map_key d S ctr c1 c2).trans (mergeC2_map_key d S ctr c1 c2))
  simpa [List.map_map, Function.comp_def, key] using h

theorem stepResult_fresh {α : Type} (d : α → α → ℚ) {S : List (Entry α)}
    {ctr : Nat} (c1 c2 : Entry α) (hF : Fresh (S, ctr)) :
    Fresh (stepResult d S ctr c1 c2, ctr + 1) := by
  intro e2 he2
  obtain ⟨e, he, rfl⟩ := List.mem_map.mp he2
  have hid : (if e.nn == some c1.id || e.nn == some c2.id then
      update_distances d e (mergeC2 d S ctr c1 c2) else e).id = e.id := by
    by_cases h : (e.nn == some c1.id || e.nn == some c2.id) = true
    · rw [if_pos h]; rfl
    · rw [if_neg h]
  rw [hid]
  rcases List.mem_append.mp he with hr | hnew
  · have := hF e (mem_mergeRest.mp hr).1
    omega
  · simp at hnew
    subst hnew
    have : (mergeNew d S ctr c1 c2).id = ctr := rfl
    omega

theorem stepResult_nodup {α : Type} (d : α → α → ℚ) {S : List (Entry α)}
    {ctr : Nat} {c1 c2 : Entry α} (hnd : IdsNodup S) (hF : Fresh (S, ctr)) :
    IdsNodup (stepResult d S ctr c1 c2) := by
  rw [IdsNodup, stepResult_map_id]
  rw [List.nodup_append]
  refine ⟨?_, List.nodup_singleton ctr, ?_⟩
  · have hsub : ((mergeRest S c1 c2).map Entry.id).Sublist (S.map Entry.id) :=
      List.Sublist.map Entry.id
        ((List.filter_sublist _).trans (List.filter_sublist S))
    exact hsub.nodup hnd
  · intro x hx hx2
    simp at hx2
    subst hx2
    obtain ⟨e, he, rfl⟩ := List.mem_map.mp hx
    have := hF e (mem_mergeRest.mp he).1
    omega

/-- Given the cache invariant, one merge iteration succeeds: the scan
returns a cluster and its cached neighbor (both active, distinct), the
cached distance is minimal among all cached distances, and `step` computes
`stepResult`. -/
theorem step_core {α : Type} {d : α → α → ℚ} {S : List (Entry α)} (ctr : Nat)
    (hInv : Inv d S) (hlen : 2 ≤ S.length) :
    ∃ c1 c2, get_closest_pair S = .ok (c1, c2.id) ∧ c1 ∈ S ∧ c2 ∈ S ∧
      c2.id ≠ c1.id ∧ c1.nn = some c2.id ∧
      c1.dist_to_NN = some (Tree.get_dist d c1.tree c2.tree) ∧
      (∀ e ∈ S, ∃ q, e.dist_to_NN = some q ∧
        Tree.get_dist d c1.tree c2.tree ≤ q) ∧
      step d (S, ctr) = .ok (stepResult d S ctr c1 c2, ctr + 1) := by
  obtain ⟨hnd, hinv⟩ := hInv
  have hSne : S ≠ [] := by
    intro h
    rw [h] at hlen
    simp at hlen
  have hcache : ∀ e ∈ S, EntryCache e := by
    intro e he
    obtain ⟨y, hy, hyne, hnn, hdist⟩ := hinv e he
    exact ⟨⟨_, hdist⟩, ⟨_, hnn⟩⟩
  obtain ⟨c1, c2id, m, hgcp, hc1S, hnn, hdist, hmin⟩ :=
    get_closest_pair_spec S hSne hcache
  obtain ⟨y, hyS, hyne, hnn2, hdist2⟩ := hinv c1 hc1S
  have hc2id : c2id = y.id := by
    rw [hnn] at hnn2
    exact Option.some.inj hnn2
  subst hc2id
  have hm : m = Tree.get_dist d c1.tree y.tree := by
    rw [hdist] at hdist2
    exact Option.some.inj hdist2
  subst hm
  have hyrest1 : y ∈ S.filter (fun e => e.id != c1.id) :=
    List.mem_filter.mpr ⟨hyS, by simpa using hyne⟩
  have hfind : (S.filter (fun e => e.id != c1.id)).find?
      (fun e => e.id == y.id) = some y := by
    cases hf : (S.filter (fun e => e.id != c1.id)).find? (fun e => e.id == y.id) with
    | none =>
      exfalso
      have := List.find?_eq_none.mp hf y hyrest1
      simp at this
    | some w =>
      have hww := List.find?_some hf
      have hwid : w.id = y.id := by simpa using hww
      have hwS : w ∈ S := List.mem_of_mem_filter (List.mem_of_find?_eq_some hf)
      rw [id_inj hnd hwS hyS hwid]
  refine ⟨c1, y, hgcp, hc1S, hyS, hyne, hnn, hdist, hmin, ?_⟩
  rw [step]
  simp only [hgcp, hfind]
  rfl

theorem mergeNew_id {α : Type} (d : α → α → ℚ) (S : List (Entry α)) (ctr : Nat)
    (c1 c2 : Entry α) : (mergeNew d S ctr c1 c2).id = ctr := rfl

theorem mergeNew_tree {α : Type} (d : α → α → ℚ) (S : List (Entry α)) (ctr : Nat)
    (c1 c2 : Entry α) :
    (mergeNew d S ctr c1 c2).tree = Tree.node c1.tree c2.tree := rfl

theorem clusters1_map_key {α : Type} (d : α → α → ℚ) (S : List (Entry α))
    (ctr : Nat) (c1 c2 : Entry α) :
    (mergeC2 d S ctr c1 c2).map key =
      (mergeRest S c1 c2 ++
        [(⟨ctr, Tree.node c1.tree c2.tree, none, none⟩ : Entry α)]).map key := by
  simp [mergeC2, key, mergeNew, update_distances]

/-- Cache-invariant preservation across one merge (when at least two
clusters remain afterwards). -/
theorem stepResult_inv {α : Type} {d : α → α → ℚ} {S : List (Entry α)}
    {ctr : Nat} {c1 c2 : Entry α}
    (hInv : Inv d S) (hF : Fresh (S, ctr))
    (h2 : 2 ≤ (stepResult d S ctr c1 c2).length) :
    Inv d (stepResult d S ctr c1 c2) := by
  obtain ⟨hnd, hinv⟩ := hInv
  refine ⟨stepResult_nodup d hnd hF, ?_⟩
  have hlenR : (stepResult d S ctr c1 c2).length = (mergeRest S c1 c2).length + 1 := by
    have := congrArg List.length
      ((stepResult_map_key d S ctr c1 c2).trans (mergeC2_map_key d S ctr c1 c2))
    simpa using this
  have hrest_ne : mergeRest S c1 c2 ≠ [] := by
    intro h
    rw [h] at hlenR
    simp at hlenR
    omega
  obtain ⟨r0, hr0⟩ := List.exists_mem_of_ne_nil _ hrest_ne
  have hr0S : r0 ∈ S := (mem_mergeRest.mp hr0).1
  have hr0lt : r0.id < ctr := hF r0 hr0S
  have htrans : ∀ a ∈ mergeC2 d S ctr c1 c2,
      ∃ b ∈ stepResult d S ctr c1 c2, b.id = a.id ∧ b.tree = a.tree :=
    fun a ha => mem_of_map_key_eq (stepResult_map_key d S ctr c1 c2).symm ha
  intro e2 he2
  obtain ⟨e, he, rfl⟩ := List.mem_map.mp he2
  rcases List.mem_append.mp he with her | henew
  · -- a surviving cluster
    have heR := mem_mergeRest.mp her
    by_cases hcond : (e.nn == some c1.id || e.nn == some c2.id) = true
    · -- its neighbor was merged: recomputed against the new active set
      rw [if_pos hcond]
      have hpeer : ∃ p ∈ mergeC2 d S ctr c1 c2, p.id ≠ e.id := by
        refine ⟨mergeNew d S ctr c1 c2, List.mem_append_right _ (by simp), ?_⟩
        rw [mergeNew_id]
        have := hF e heR.1
        omega
      obtain ⟨y, hyC2, hyne, hynn, hydist, hymin⟩ :=
        update_distances_spec d e (mergeC2 d S ctr c1 c2) hpeer
      obtain ⟨b, hb, hbid, hbtree⟩ := htrans y hyC2
      refine ⟨b, hb, ?_, ?_, ?_⟩
      · rw [hbid, update_id]
        exact hyne
      · rw [hynn, hbid]
      · rw [hydist]
        have h1 : (update_distances d e (mergeC2 d S ctr c1 c2)).tree = e.tree :=
          update_tree d e _
        rw [h1, hbtree]
    · -- its neighbor survived: the stale cache still points into the set
      rw [if_neg hcond]
      obtain ⟨y, hyS, hyne, hynn, hydist⟩ := hinv e heR.1
      have hcond2 : e.nn ≠ some c1.id ∧ e.nn ≠ some c2.id := by
        constructor <;> intro h <;> apply hcond <;> simp [h]
      have hy1 : y.id ≠ c1.id := by
        intro h
        exact hcond2.1 (by rw [hynn, h])
      have hy2 : y.id ≠ c2.id := by
        intro h
        exact hcond2.2 (by rw [hynn, h])
      have hyrest : y ∈ mergeRest S c1 c2 := mem_mergeRest.mpr ⟨hyS, hy1, hy2⟩
      obtain ⟨b, hb, hbid, hbtree⟩ :=
        htrans y (List.mem_append_left _ hyrest)
      refine ⟨b, hb, ?_, ?_, ?_⟩
      · rw [hbid]; exact hyne
      · rw [hynn, hbid]
      · rw [hydist, hbtree]
  · -- the new OTU
    simp at henew
    subst henew
    have hpeer : ∃ p ∈ mergeRest S c1 c2 ++
        [(⟨ctr, Tree.node c1.tree c2.tree, none, none⟩ : Entry α)],
        p.id ≠ (⟨ctr, Tree.node c1.tree c2.tree, none, none⟩ : Entry α).id := by
      refine ⟨r0, List.mem_append_left _ hr0, ?_⟩
      show r0.id ≠ ctr
      omega
    obtain ⟨y, hyC1, hyne, hynn, hydist, hymin⟩ :=
      update_distances_spec d _ _ hpeer
    have hynew : y ∈ mergeRest S c1 c2 := by
      rcases List.mem_append.mp hyC1 with h | h
      · exact h
      · simp at h
        subst h
        simp at hyne
    have hyR := mem_mergeRest.mp hynew
    have hyS : y ∈ S := hyR.1
    have hylt : y.id < ctr := hF y hyS
    -- mergeNew is exactly this update
    have hmn_nn : (mergeNew d S ctr c1 c2).nn = some y.id := hynn
    have hmn_dist : (mergeNew d S ctr c1 c2).dist_to_NN =
        some (Tree.get_dist d (Tree.node c1.tree c2.tree) y.tree) := hydist
    have hcond : ((mergeNew d S ctr c1 c2).nn == some c1.id ||
        (mergeNew d S ctr c1 c2).nn == some c2.id) = false := by
      rw [hmn_nn]
      simp
      exact ⟨hyR.2.1, hyR.2.2⟩
    rw [if_neg (by simp [hcond])]
    obtain ⟨b, hb, hbid, hbtree⟩ :=
      htrans y (List.mem_append_left _ hynew)
    refine ⟨b, hb, ?_, ?_, ?_⟩
    · rw [hbid, mergeNew_id]
      omega
    · rw [hmn_nn, hbid]
    · rw [hmn_dist, hbtree, mergeNew_tree]

/-- The fresh OTU's cached neighbor is never one of the just-merged pair
(their ids are gone from the set it scanned). -/
theorem mergeNew_cond_false {α : Type} (d : α → α → ℚ) (S : List (Entry α))
    (ctr : Nat) (c1 c2 : Entry α) :
    ((mergeNew d S ctr c1 c2).nn == some c1.id ||
      (mergeNew d S ctr c1 c2).nn == some c2.id) = false := by
  by_cases hrest : ∀ p ∈ mergeRest S c1 c2 ++
      [(⟨ctr, Tree.node c1.tree c2.tree, none, none⟩ : Entry α)],
      p.id = (⟨ctr, Tree.node c1.tree c2.tree, none, none⟩ : Entry α).id
  · have h := (update_distances_self d _ _ hrest).1
    have hmn : (mergeNew d S ctr c1 c2).nn = none := h
    rw [hmn]
    rfl
  · push_neg at hrest
    obtain ⟨p, hp, hpne⟩ := hrest
    obtain ⟨y, hyC1, hyne, hynn, hydist, hymin⟩ :=
      update_distances_spec d _ _ ⟨p, hp, hpne⟩
    have hmn : (mergeNew d S ctr c1 c2).nn = some y.id := hynn
    have hynew : y ∈ mergeRest S c1 c2 := by
      rcases List.mem_append.mp hyC1 with h | h
      · exact h
      · simp at h
        subst h
        simp at hyne
    have hyR := mem_mergeRest.mp hynew
    rw [hmn]
    simp
    exact ⟨hyR.2.1, hyR.2.2⟩

/-- Optimality-invariant preservation across one merge: every cached
distance in the new active set is still a lower bound on the distances to
all other current clusters (nonnegativity of the distance function and the
reducibility lemma enter here). -/
theorem stepResult_min {α : Type} {d : α → α → ℚ} (hd : ∀ a b, 0 ≤ d a b)
    {S : List (Entry α)} {ctr : Nat} {c1 c2 : Entry α}
    (hInv : Inv d S) (hMin : MinInv d S) (hF : Fresh (S, ctr))
    (hc1 : c1 ∈ S) (hc2 : c2 ∈ S) :
    MinInv d (stepResult d S ctr c1 c2) := by
  obtain ⟨hnd, hinv⟩ := hInv
  have htransC2 : ∀ a ∈ stepResult d S ctr c1 c2,
      ∃ b ∈ mergeC2 d S ctr c1 c2, b.id = a.id ∧ b.tree = a.tree :=
    fun a ha => mem_of_map_key_eq (stepResult_map_key d S ctr c1 c2) ha
  intro e2 he2 q hq z hz hzne
  obtain ⟨e, he, rfl⟩ := List.mem_map.mp he2
  obtain ⟨zc, hzc, hzcid, hzctree⟩ := htransC2 z hz
  rcases List.mem_append.mp he with her | henew
  · have heR := mem_mergeRest.mp her
    by_cases hcond : (e.nn == some c1.id || e.nn == some c2.id) = true
    · -- recomputed entry: its cache is the fresh minimum over the new set
      rw [if_pos hcond] at hq hzne ⊢
      have hpeer : ∃ p ∈ mergeC2 d S ctr c1 c2, p.id ≠ e.id := by
        refine ⟨mergeNew d S ctr c1 c2, List.mem_append_right _ (by simp), ?_⟩
        rw [mergeNew_id]
        have := hF e heR.1
        omega
      obtain ⟨y, hyC2, hyne, hynn, hydist, hymin⟩ :=
        update_distances_spec d e (mergeC2 d S ctr c1 c2) hpeer
      rw [hydist] at hq
      have hq2 := Option.some.inj hq
      subst hq2
      have hzcne : zc.id ≠ e.id := by
        rw [hzcid]
        rw [update_id] at hzne
        exact hzne
      have hle := hymin zc hzc hzcne
      rw [update_tree, ← hzctree]
      exact hle
    · -- kept entry: old lower bound, extended to the new OTU by reducibility
      rw [if_neg hcond] at hq hzne ⊢
      have heS := heR.1
      have hbound := hMin e heS q hq
      rcases List.mem_append.mp hzc with hzr | hznew
      · have hzcS : zc ∈ S := (mem_mergeRest.mp hzr).1
        have := hbound zc hzcS (by rw [hzcid]; exact hzne)
        rw [← hzctree]
        exact this
      · simp at hznew
        subst hznew
        have hq1 : q ≤ Tree.get_dist d e.tree c1.tree :=
          hbound c1 hc1 (fun h => heR.2.1 h.symm)
        have hq2 : q ≤ Tree.get_dist d e.tree c2.tree :=
          hbound c2 hc2 (fun h => heR.2.2 h.symm)
        rw [← hzctree, mergeNew_tree]
        exact le_trans (le_min hq1 hq2) (get_dist_node_ge hd e.tree c1.tree c2.tree)
  · -- the new OTU: its cache is the fresh minimum over the set it scanned
    simp at henew
    subst henew
    have hcondF := mergeNew_cond_false d S ctr c1 c2
    rw [if_neg (by simp [hcondF])] at hq hzne ⊢
    -- its cache comes from the update over the pre-update list
    have hpeer : ∃ p ∈ mergeRest S c1 c2 ++
        [(⟨ctr, Tree.node c1.tree c2.tree, none, none⟩ : Entry α)],
        p.id ≠ (⟨ctr, Tree.node c1.tree c2.tree, none, none⟩ : Entry α).id := by
      by_contra hall
      push_neg at hall
      have h := (update_distances_self d _ _ hall).2
      have hmn : (mergeNew d S ctr c1 c2).dist_to_NN = none := h
      rw [hmn] at hq
      exact Option.noConfusion hq
    obtain ⟨y, hyC1, hyne, hynn, hydist, hymin⟩ :=
      update_distances_spec d _ _ hpeer
    have hmn_dist : (mergeNew d S ctr c1 c2).dist_to_NN =
        some (Tree.get_dist d (Tree.node c1.tree c2.tree) y.tree) := hydist
    rw [hmn_dist] at hq
    have hq2 := Option.some.inj hq
    subst hq2
    have hmn_min : ∀ p ∈ mergeRest S c1 c2 ++
        [(⟨ctr, Tree.node c1.tree c2.tree, none, none⟩ : Entry α)],
        p.id ≠ ctr →
        Tree.get_dist d (Tree.node c1.tree c2.tree) y.tree ≤
          Tree.get_dist d (Tree.node c1.tree c2.tree) p.tree := hymin
    obtain ⟨zb, hzb, hzbid, hzbtree⟩ :=
      mem_of_map_key_eq (clusters1_map_key d S ctr c1 c2) hzc
    have hzbne : zb.id ≠ ctr := by
      rw [hzbid, hzcid]
      rw [mergeNew_id] at hzne
      exact hzne
    have hle := hmn_min zb hzb hzbne
    rw [hzbtree, hzctree] at hle
    rw [mergeNew_tree]
    exact hle

/-- A merge step only regroups taxa: the multiset of all taxa in the active
set is unchanged. -/
theorem stepResult_leaves_perm {α : Type} (d : α → α → ℚ) {S : List (Entry α)}
    {c1 c2 : Entry α} (ctr : Nat)
    (hnd : IdsNodup S) (hc1 : c1 ∈ S) (hc2 : c2 ∈ S) (hne : c2.id ≠ c1.id) :
    ((stepResult d S ctr c1 c2).map (fun e => e.tree.leaves)).flatten.Perm
      ((S.map (fun e => e.tree.leaves)).flatten) := by
  have h1 : (stepResult d S ctr c1 c2).map (fun e => e.tree.leaves) =
      (mergeRest S c1 c2).map (fun e => e.tree.leaves) ++
        [c1.tree.leaves ++ c2.tree.leaves] := by
    have := congrArg (List.map Tree.leaves) (stepResult_map_tree d S ctr c1 c2)
    simpa [List.map_map, Function.comp_def, Tree.leaves] using this
  have hp := ((perm_merge hnd hc1 hc2 hne).map (fun e => e.tree.leaves)).flatten
  refine List.Perm.trans ?_ hp.symm
  rw [h1, List.flatten_append]
  simp only [List.map_cons, List.flatten_cons, List.flatten, List.append_nil]
  have hcomm := @List.perm_append_comm α
    (((mergeRest S c1 c2).map (fun e => e.tree.leaves)).flatten)
    (c1.tree.leaves ++ c2.tree.leaves)
  refine hcomm.trans ?_
  simp [List.append_assoc]

/-- Clusters untouched by the merge (not merged, cached neighbor not
merged) survive with their caches bit-for-bit intact. -/
theorem stepResult_preserved {α : Type} (d : α → α → ℚ)
    {S : List (Entry α)} {ctr : Nat} {c1 c2 : Entry α} :
    ∀ e ∈ S, e.id ≠ c1.id → e.id ≠ c2.id →
      e.nn ≠ some c1.id → e.nn ≠ some c2.id →
      e ∈ stepResult d S ctr c1 c2 := by
  intro e heS h1 h2 h3 h4
  have her : e ∈ mergeRest S c1 c2 := mem_mergeRest.mpr ⟨heS, h1, h2⟩
  have heC2 : e ∈ mergeC2 d S ctr c1 c2 := List.mem_append_left _ her
  refine List.mem_map.mpr ⟨e, heC2, ?_⟩
  rw [if_neg]
  simp [h3, h4]

/-- Running `k` merge iterations from an invariant state succeeds, shrinks
the active set by exactly one cluster per iteration, preserves the
invariants, and permutes no taxa. -/
theorem buildLoop_spec {α : Type} (d : α → α → ℚ) :
    ∀ (i : Nat) (S : List (Entry α)) (ctr : Nat),
      (2 ≤ S.length → Inv d S) → Fresh (S, ctr) → i + 1 ≤ S.length →
      ∃ T c, buildLoop d i (S, ctr) = .ok (T, c) ∧
        T.length + i = S.length ∧ (2 ≤ T.length → Inv d T) ∧ Fresh (T, c) ∧
        ((T.map (fun e => e.tree.leaves)).flatten).Perm
          ((S.map (fun e => e.tree.leaves)).flatten) := by
  intro i
  induction i with
  | zero =>
    intro S ctr hI hF hlen
    exact ⟨S, ctr, rfl, rfl, hI, hF, List.Perm.refl _⟩
  | succ k ih =>
    intro S ctr hI hF hlen
    have h2 : 2 ≤ S.length := by omega
    have hInv := hI h2
    obtain ⟨c1, c2, hgcp, hc1, hc2, hne, hnn, hdist, hmin, hstep⟩ :=
      step_core ctr hInv h2
    have hlen2 := stepResult_length d ctr hInv.1 hc1 hc2 hne
    have hInv2 : 2 ≤ (stepResult d S ctr c1 c2).length →
        Inv d (stepResult d S ctr c1 c2) :=
      fun h => stepResult_inv ⟨hInv.1, hInv.2⟩ hF h
    have hF2 := stepResult_fresh d c1 c2 hF
    obtain ⟨T, c, hrun, hTlen, hTI, hTF, hTperm⟩ :=
      ih (stepResult d S ctr c1 c2) (ctr + 1) hInv2 hF2 (by omega)
    refine ⟨T, c, ?_, by omega, hTI, hTF,
      hTperm.trans (stepResult_leaves_perm d ctr hInv.1 hc1 hc2 hne)⟩
    rw [buildLoop]
    simp only [hstep]
    exact hrun

/-- Variant of `buildLoop_spec` that also carries the optimality invariant
(for a nonnegative distance function). -/
theorem buildLoop_spec_min {α : Type} {d : α → α → ℚ} (hd : ∀ a b, 0 ≤ d a b) :
    ∀ (i : Nat) (S : List (Entry α)) (ctr : Nat),
      (2 ≤ S.length → Inv d S ∧ MinInv d S) → Fresh (S, ctr) →
      i + 1 ≤ S.length →
      ∃ T c, buildLoop d i (S, ctr) = .ok (T, c) ∧
        T.length + i = S.length ∧
        (2 ≤ T.length → Inv d T ∧ MinInv d T) ∧ Fresh (T, c) := by
  intro i
  induction i with
  | zero =>
    intro S ctr hI hF hlen
    exact ⟨S, ctr, rfl, rfl, hI, hF⟩
  | succ k ih =>
    intro S ctr hI hF hlen
    have h2 : 2 ≤ S.length := by omega
    obtain ⟨hInv, hMin⟩ := hI h2
    obtain ⟨c1, c2, hgcp, hc1, hc2, hne, hnn, hdist, hmin, hstep⟩ :=
      step_core ctr hInv h2
    have hlen2 := stepResult_length d ctr hInv.1 hc1 hc2 hne
    have hI2 : 2 ≤ (stepResult d S ctr c1 c2).length →
        Inv d (stepResult d S ctr c1 c2) ∧ MinInv d (stepResult d S ctr c1 c2) :=
      fun h => ⟨stepResult_inv hInv hF h,
        stepResult_min hd hInv hMin hF hc1 hc2⟩
    have hF2 := stepResult_fresh d c1 c2 hF
    obtain ⟨T, c, hrun, hTlen, hTI, hTF⟩ :=
      ih (stepResult d S ctr c1 c2) (ctr + 1) hI2 hF2 (by omega)
    refine ⟨T, c, ?_, by omega, hTI, hTF⟩
    rw [buildLoop]
    simp only [hstep]
    exact hrun

theorem map_key_update {α : Type} (d : α → α → ℚ) (B C : List (Entry α)) :
    (B.map (fun e => update_distances d e C)).map key = B.map key := by
  rw [List.map_map]
  exact List.map_congr_left (fun e he => rfl)

theorem flatten_map_singleton {α : Type} (l : List α) :
    (l.map (fun a => [a])).flatten = l := by
  induction l with
  | nil => rfl
  | cons a t ih => simp [ih]

theorem initState_length {α : Type} (d : α → α → ℚ) (taxa : List α) :
    (initState d taxa).1.length = taxa.length := by
  simp [initState]

theorem initState_map_key {α : Type} (d : α → α → ℚ) (taxa : List α) :
    (initState d taxa).1.map key =
      taxa.enum.map (fun p => (p.1, Tree.leaf p.2)) := by
  simp only [initState, List.map_map]
  rfl

theorem initState_map_id {α : Type} (d : α → α → ℚ) (taxa : List α) :
    (initState d taxa).1.map Entry.id = List.range taxa.length := by
  have h := congrArg (List.map Prod.fst) (initState_map_key d taxa)
  simp only [List.map_map] at h
  have h2 : taxa.enum.map (Prod.fst ∘ fun p : Nat × α => (p.1, Tree.leaf p.2)) =
      taxa.enum.map Prod.fst := rfl
  rw [h2, List.enum_map_fst] at h
  exact h

theorem initState_map_tree {α : Type} (d : α → α → ℚ) (taxa : List α) :
    (initState d taxa).1.map Entry.tree = taxa.map Tree.leaf := by
  have h := congrArg (List.map Prod.snd) (initState_map_key d taxa)
  simp only [List.map_map] at h
  have h2 : taxa.enum.map (Prod.snd ∘ fun p : Nat × α => (p.1, Tree.leaf p.2)) =
      taxa.enum.map (fun p => Tree.leaf p.2) := rfl
  rw [h2] at h
  have h3 : taxa.enum.map (fun p => Tree.leaf p.2) =
      (taxa.enum.map Prod.snd).map Tree.leaf := by
    rw [List.map_map]
    rfl
  rw [h3, List.enum_map_snd] at h
  exact h

theorem initState_nodup {α : Type} (d : α → α → ℚ) (taxa : List α) :
    IdsNodup (initState d taxa).1 := by
  rw [IdsNodup, initState_map_id]
  exact List.nodup_range _

theorem initState_fresh {α : Type} (d : α → α → ℚ) (taxa : List α) :
    Fresh (initState d taxa) := by
  intro e he
  have : e.id ∈ (initState d taxa).1.map Entry.id := List.mem_map_of_mem Entry.id he
  rw [initState_map_id] at this
  exact List.mem_range.mp this

/-- After the initial pass on at least two taxa, both invariants hold. -/
theorem initState_inv {α : Type} (d : α → α → ℚ) (taxa : List α)
    (h2 : 2 ≤ taxa.length) :
    Inv d (initState d taxa).1 ∧ MinInv d (initState d taxa).1 := by
  set base := taxa.enum.map
    (fun p => (⟨p.1, Tree.leaf p.2, none, none⟩ : Entry α)) with hbase
  have hS : (initState d taxa).1 = base.map (fun e => update_distances d e base) := rfl
  have hkeys : base.map key = (initState d taxa).1.map key := by
    rw [hS]
    exact (map_key_update d base base).symm
  have hbnd : IdsNodup base := by
    have : base.map Entry.id = (initState d taxa).1.map Entry.id := by
      have h := congrArg (List.map Prod.fst) hkeys
      simpa [List.map_map, Function.comp_def, key] using h
    rw [IdsNodup, this, initState_map_id]
    exact List.nodup_range _
  have hblen : 2 ≤ base.length := by
    rw [hbase]
    simpa using h2
  have htrans : ∀ a ∈ base, ∃ b ∈ (initState d taxa).1,
      b.id = a.id ∧ b.tree = a.tree :=
    fun a ha => mem_of_map_key_eq hkeys ha
  have htransBack : ∀ a ∈ (initState d taxa).1, ∃ b ∈ base,
      b.id = a.id ∧ b.tree = a.tree :=
    fun a ha => mem_of_map_key_eq hkeys.symm ha
  constructor
  · refine ⟨by rw [IdsNodup, initState_map_id]; exact List.nodup_range _, ?_⟩
    intro e2 he2
    rw [hS] at he2
    obtain ⟨b, hb, rfl⟩ := List.mem_map.mp he2
    obtain ⟨p, hp, hpne⟩ := exists_mem_id_ne hbnd hblen b
    obtain ⟨y, hyb, hyne, hynn, hydist, hymin⟩ :=
      update_distances_spec d b base ⟨p, hp, hpne⟩
    obtain ⟨y2, hy2, hy2id, hy2tree⟩ := htrans y hyb
    refine ⟨y2, hy2, ?_, ?_, ?_⟩
    · rw [hy2id, update_id]
      exact hyne
    · rw [hynn, hy2id]
    · rw [hydist, update_tree, hy2tree]
  · intro e2 he2 q hq z hz hzne
    rw [hS] at he2
    obtain ⟨b, hb, rfl⟩ := List.mem_map.mp he2
    obtain ⟨p, hp, hpne⟩ := exists_mem_id_ne hbnd hblen b
    obtain ⟨y, hyb, hyne, hynn, hydist, hymin⟩ :=
      update_distances_spec d b base ⟨p, hp, hpne⟩
    rw [hydist] at hq
    have hq2 := Option.some.inj hq
    subst hq2
    obtain ⟨zb, hzb, hzbid, hzbtree⟩ := htransBack z hz
    have hzbne : zb.id ≠ b.id := by
      rw [hzbid]
      rw [update_id] at hzne
      exact hzne
    have hle := hymin zb hzb hzbne
    rw [hzbtree] at hle
    rw [update_tree]
    exact hle

/-- The taxa of the initial active set, in order. -/
theorem initState_flatten {α : Type} (d : α → α → ℚ) (taxa : List α) :
    ((initState d taxa).1.map (fun e => e.tree.leaves)).flatten = taxa := by
  have h : (initState d taxa).1.map (fun e => e.tree.leaves) =
      ((initState d taxa).1.map Entry.tree).map Tree.leaves := by
    rw [List.map_map]
    rfl
  rw [h, initState_map_tree, List.map_map]
  have h2 : taxa.map (Tree.leaves ∘ Tree.leaf) = taxa.map (fun a => [a]) := rfl
  rw [h2, flatten_map_singleton]

/-- `buildLoop_spec` anchored at the initial state of a taxa list. -/
theorem buildLoop_init_spec {α : Type} (d : α → α → ℚ) (taxa : List α)
    (i : Nat) (hi : i + 1 ≤ taxa.length) :
    ∃ T c, buildLoop d i (initState d taxa) = .ok (T, c) ∧
      T.length + i = taxa.length ∧ (2 ≤ T.length → Inv d T) ∧ Fresh (T, c) ∧
      ((T.map (fun e => e.tree.leaves)).flatten).Perm taxa := by
  have hIS : 2 ≤ (initState d taxa).1.length → Inv d (initState d taxa).1 := by
    intro h
    exact (initState_inv d taxa (by rwa [initState_length] at h)).1
  obtain ⟨T, c, hrun, hTlen, hTI, hTF, hTperm⟩ :=
    buildLoop_spec d i (initState d taxa).1 (initState d taxa).2 hIS
      (initState_fresh d taxa) (by rwa [initState_length])
  refine ⟨T, c, hrun, ?_, hTI, hTF, ?_⟩
  · rwa [initState_length] at hTlen
  · rw [initState_flatten] at hTperm
    exact hTperm

/-- `buildLoop_spec_min` anchored at the initial state. -/
theorem buildLoop_init_min {α : Type} {d : α → α → ℚ} (hd : ∀ a b, 0 ≤ d a b)
    (taxa : List α) (i : Nat) (hi : i + 1 ≤ taxa.length) :
    ∃ T c, buildLoop d i (initState d taxa) = .ok (T, c) ∧
      T.length + i = taxa.length ∧
      (2 ≤ T.length → Inv d T ∧ MinInv d T) ∧ Fresh (T, c) := by
  have hIS : 2 ≤ (initState d taxa).1.length →
      Inv d (initState d taxa).1 ∧ MinInv d (initState d taxa).1 := by
    intro h
    exact initState_inv d taxa (by rwa [initState_length] at h)
  obtain ⟨T, c, hrun, hTlen, hTI, hTF⟩ :=
    buildLoop_spec_min hd i (initState d taxa).1 (initState d taxa).2 hIS
      (initState_fresh d taxa) (by rwa [initState_length])
  refine ⟨T, c, hrun, ?_, hTI, hTF⟩
  rwa [initState_length] at hTlen

/-- C3: for nonempty input, after `i` merges the active set has `n - i`
clusters; after `n - 1` merges exactly one remains, so `build_tree`
succeeds (the post-loop assertion never fails). -/
theorem C3 : ∀ (α : Type) (d : α → α → ℚ) (taxa : List α),
    taxa ≠ [] → SizesOk d taxa := by
  intro α d taxa hne
  have hn : 1 ≤ taxa.length := List.length_pos.mpr hne
  constructor
  · intro i hi
    obtain ⟨T, c, hrun, hTlen, _, _, _⟩ := buildLoop_init_spec d taxa i hi
    exact ⟨T, c, hrun, hTlen⟩
  · obtain ⟨T, c, hrun, hTlen, _, _, _⟩ :=
      buildLoop_init_spec d taxa (taxa.length - 1) (by omega)
    have hT1 : T.length = 1 := by omega
    obtain ⟨c0, hc0⟩ := List.length_eq_one.mp hT1
    refine ⟨c0.tree, ?_⟩
    rw [build_tree, hrun, hc0]

/-- C9: for `n ≥ 2` items, at the start of each loop iteration
(`i ≤ n - 2` merges done) every active cluster has a non-`None` cached
neighbor that is a distinct active member and a numeric cached distance,
and the closest-pair scan returns without hitting its assertion. -/
theorem C9 : ∀ (α : Type) (d : α → α → ℚ) (taxa : List α),
    2 ≤ taxa.length → ∀ i, i + 2 ≤ taxa.length → ScanSafe d taxa i := by
  intro α d taxa h2 i hi
  obtain ⟨T, c, hrun, hTlen, hTI, hTF, hTperm⟩ :=
    buildLoop_init_spec d taxa i (by omega)
  have hT2 : 2 ≤ T.length := by omega
  obtain ⟨hnd, hinv⟩ := hTI hT2
  refine ⟨T, c, hrun, ?_, ?_⟩
  · intro e he
    obtain ⟨y, hy, hyne, hynn, hydist⟩ := hinv e he
    exact ⟨y, hy, hyne, hynn, _, hydist⟩
  · have hTne : T ≠ [] := by
      intro h
      rw [h] at hT2
      simp at hT2
    have hcache : ∀ e ∈ T, EntryCache e := by
      intro e he
      obtain ⟨y, hy, hyne, hynn, hydist⟩ := hinv e he
      exact ⟨⟨_, hydist⟩, ⟨_, hynn⟩⟩
    obtain ⟨c1, c2id, m, hgcp, _, _, _, _⟩ := get_closest_pair_spec T hTne hcache
    exact ⟨(c1, c2id), hgcp⟩

/-- C7: for nonempty input the built tree has exactly `n` taxa and `n - 1`
OTUs, its left-to-right taxa sequence is a permutation of the input
multiset, `len(root) = n`, and the display string joins that sequence
with "-". -/
theorem C7 : ∀ (α : Type) (d : α → α → ℚ) (taxa : List α),
    taxa ≠ [] → TreeShapeOk d taxa := by
  intro α d taxa hne
  have hn : 1 ≤ taxa.length := List.length_pos.mpr hne
  obtain ⟨T, c, hrun, hTlen, _, _, hTperm⟩ :=
    buildLoop_init_spec d taxa (taxa.length - 1) (by omega)
  have hT1 : T.length = 1 := by omega
  obtain ⟨c0, hc0⟩ := List.length_eq_one.mp hT1
  subst hc0
  have hperm : c0.tree.leaves.Perm taxa := by
    simpa using hTperm
  have hlenp : c0.tree.leaves.length = taxa.length := hperm.length_eq
  refine ⟨c0.tree, ?_, hlenp, ?_, hperm, hlenp, fun f => rfl⟩
  · rw [build_tree, hrun]
  · have := internal_add_one c0.tree
    rw [Tree.len] at this
    omega

/-- C2: with a nonnegative distance function, at the start of every merge
iteration the cluster with the smallest cached distance and its cached
neighbor form a globally closest pair of the active set (despite stale
caches), the step removes exactly those two and appends their OTU, and
only the new OTU and the clusters whose cached neighbor was merged get
recomputed caches. -/
theorem C2 : ∀ (α : Type) (d : α → α → ℚ), (∀ a b, 0 ≤ d a b) →
    ∀ (taxa : List α) (i : Nat), i + 2 ≤ taxa.length →
    ClosestPairStep d taxa i := by
  intro α d hd taxa i hi
  obtain ⟨T, c, hrun, hTlen, hTI, hTF⟩ := buildLoop_init_min hd taxa i (by omega)
  have hT2 : 2 ≤ T.length := by omega
  obtain ⟨hInv, hMin⟩ := hTI hT2
  obtain ⟨c1, c2, hgcp, hc1, hc2, hne, hnn, hdist, hmin, hstep⟩ :=
    step_core c hInv hT2
  refine ⟨T, c, c1, c2, stepResult d T c c1 c2, hrun, hgcp, hc1, hc2, hne, hnn,
    hdist, ?_, hstep, ?_, ?_, ?_⟩
  · intro X hX Z hZ hZX
    obtain ⟨qX, hqX, hmq⟩ := hmin X hX
    exact le_trans hmq (hMin X hX qX hqX Z hZ hZX)
  · exact stepResult_length d c hInv.1 hc1 hc2 hne
  · exact stepResult_map_tree d T c c1 c2
  · exact fun e he h1 h2 h3 h4 => stepResult_preserved d e he h1 h2 h3 h4

/-- C2 witness: the property at the second iteration (one merge done) of
the concrete scenario. -/
theorem C2_witness : ClosestPairStep distAbs [(0 : ℚ), 2, 3, 9] 1 :=
  C2 ℚ distAbs (fun a b => abs_nonneg (a - b)) [(0 : ℚ), 2, 3, 9] 1 (by norm_num)

/-- C3 witness: sizes and success on the concrete scenario. -/
theorem C3_witness : SizesOk distAbs [(0 : ℚ), 2, 3, 9] :=
  C3 ℚ distAbs [(0 : ℚ), 2, 3, 9] (List.cons_ne_nil 0 [2, 3, 9])

/-- C7 witness: shape facts on the concrete scenario. -/
theorem C7_witness : TreeShapeOk distAbs [(0 : ℚ), 2, 3, 9] :=
  C7 ℚ distAbs [(0 : ℚ), 2, 3, 9] (List.cons_ne_nil 0 [2, 3, 9])

/-- C9 witness: the scan-safety property at the second iteration of the
concrete scenario. -/
theorem C9_witness : ScanSafe distAbs [(0 : ℚ), 2, 3, 9] 1 :=
  C9 ℚ distAbs [(0 : ℚ), 2, 3, 9] (by norm_num) 1 (by norm_num)

end Upgma
